import Mathlib

/-!
Verification of the single-cell RNA-seq compression codec.

This file gives a shallow embedding, in Lean, of the Go sources of the
codec (bit arrays, the Elias-Fano coder, the zig-zag varint coder, the
delta codec with its DEFLATE wrapping, the Jaccard reference selector and
the row decompressor), and settles the specified properties against it.

Machine integers are modelled by `Nat`/`Int`; wherever the Go code's
`uint32`/`int32` arithmetic can wrap, the model applies an explicit
`% 4294967296` (or converts through `toInt32`) at the same place.
Go `for` loops are modelled by structural recursion, with an explicit
fuel argument when the loop is not structural on its data; the fuel is
always large enough that the model agrees with the source on the stated
domain (noted at each definition).
-/

deriving instance DecidableEq for Except

namespace SCComp

/-- One cell of the sparse matrix: parallel lists of gene indices and
expression counts (`SparseRow` in the Go source). -/
structure SparseRow where
  Indices : List Nat
  Values : List Nat
deriving DecidableEq

instance : Inhabited SparseRow := ⟨⟨[], []⟩⟩

/-- One compressed cell (`CompressedRow` in the Go source). `RefCell` is the
Go `int32` field: `-1` means no reference. -/
structure CompressedRow where
  EliasGenes : List Nat
  DeltaValues : List Nat
  RefCell : Int
  NumGenes : Nat
  MaxGeneIndex : Nat
deriving DecidableEq

instance : Inhabited CompressedRow := ⟨⟨[], [], -1, 0, 0⟩⟩

/-- Interpret the low 32 bits of a natural number as a two's-complement
signed 32-bit value (Go's `int32(x)` cast of a `uint32`). -/
def toInt32 (n : Nat) : Int :=
  if n % 4294967296 < 2147483648 then ((n % 4294967296 : Nat) : Int)
  else ((n % 4294967296 : Nat) : Int) - 4294967296

/-- The 32-bit two's-complement bit pattern of an integer (Go's `uint32(v)`
cast of an `int32`). -/
def int32bits (v : Int) : Nat := (Int.emod v 4294967296).toNat

/-- Little-endian serialization of a `uint32` (Go `binary.Write` with
`binary.LittleEndian`). -/
def u32Bytes (n : Nat) : List Nat :=
  [n % 256, n / 256 % 256, n / 65536 % 256, n / 16777216 % 256]

/-- Little-endian serialization of a `uint64` word. -/
def u64Bytes (n : Nat) : List Nat :=
  [n % 256, n / 256 % 256, n / 65536 % 256, n / 16777216 % 256,
   n / 4294967296 % 256, n / 1099511627776 % 256,
   n / 281474976710656 % 256, n / 72057594037927936 % 256]

/-- Read a little-endian `uint32` from a byte list (Go `binary.Read`);
errors on a short buffer exactly as `binary.Read` does. -/
def readU32 : List Nat → Except String (Nat × List Nat)
  | a :: b :: c :: d :: rest => .ok (a + 256 * b + 65536 * c + 16777216 * d, rest)
  | _ => .error "unexpected EOF"

/-- Read a little-endian `uint64` word from a byte list. -/
def readU64 : List Nat → Except String (Nat × List Nat)
  | a :: b :: c :: d :: e :: f :: g :: h :: rest =>
      .ok (a + 256 * b + 65536 * c + 16777216 * d + 4294967296 * e
            + 1099511627776 * f + 281474976710656 * g
            + 72057594037927936 * h, rest)
  | _ => .error "unexpected EOF"

/-- Read `n` consecutive `uint64` words. -/
def readWords : Nat → List Nat → Except String (List Nat × List Nat)
  | 0, rest => .ok ([], rest)
  | n + 1, bs => do
      let (w, r1) ← readU64 bs
      let (ws, r2) ← readWords n r1
      .ok (w :: ws, r2)

/-- `BitArray` of the Go source: packed 64-bit words plus a logical size. -/
structure BitArray where
  Data : List Nat
  Size : Nat
deriving DecidableEq

/-- `NewBitArray`: `(size+63)/64` zero words. -/
def NewBitArray (size : Nat) : BitArray :=
  ⟨List.replicate ((size + 63) / 64) 0, size⟩

/-- `BitArray.SetBit`: out-of-range positions are a silent no-op. -/
def BitArray.SetBit (ba : BitArray) (pos : Nat) : BitArray :=
  if pos ≥ ba.Size then ba
  else ⟨ba.Data.set (pos / 64)
          (ba.Data.getD (pos / 64) 0 ||| (1 <<< (pos % 64))), ba.Size⟩

/-- `BitArray.GetBit`: out-of-range positions read as `false`. -/
def BitArray.GetBit (ba : BitArray) (pos : Nat) : Bool :=
  if pos ≥ ba.Size then false
  else (ba.Data.getD (pos / 64) 0 &&& (1 <<< (pos % 64))) != 0

/-- The loop body of `BitArray.WriteBits`: bit `i` of `value` goes to
position `pos + i`, for `i` below `numBits` (remaining count `n`). -/
def BitArray.writeBitsFrom (ba : BitArray) (pos value i : Nat) : Nat → BitArray
  | 0 => ba
  | n + 1 =>
      let ba2 := if (value &&& (1 <<< i)) != 0 then ba.SetBit (pos + i) else ba
      ba2.writeBitsFrom pos value (i + 1) n

/-- `BitArray.WriteBits(pos, value, numBits)`, least-significant bit first. -/
def BitArray.WriteBits (ba : BitArray) (pos value numBits : Nat) : BitArray :=
  ba.writeBitsFrom pos value 0 numBits

/-- The loop body of `BitArray.ReadBits`. -/
def BitArray.readBitsFrom (ba : BitArray) (pos i acc : Nat) : Nat → Nat
  | 0 => acc
  | n + 1 =>
      ba.readBitsFrom pos (i + 1)
        (if ba.GetBit (pos + i) then acc ||| (1 <<< i) else acc) n

/-- `BitArray.ReadBits(pos, numBits)`, least-significant bit first. -/
def BitArray.ReadBits (ba : BitArray) (pos numBits : Nat) : Nat :=
  ba.readBitsFrom pos 0 0 numBits

/-- `BitArray.WriteTo`: the 32-bit size, then the packed words, all
little-endian. -/
def BitArray.writeTo (ba : BitArray) : List Nat :=
  u32Bytes ba.Size ++ (ba.Data.map u64Bytes).flatten

/-- `BitArray.ReadFrom`: reads the size, recomputes the word count, reads
the words. -/
def BitArray.readFrom (bs : List Nat) : Except String (BitArray × List Nat) := do
  let (size, r1) ← readU32 bs
  let (ws, r2) ← readWords ((size + 63) / 64) r1
  .ok (⟨ws, size⟩, r2)

/-- The low-bit search loop of `NewEliasEncoder`: raise `l` while
`2^l < ratio`. Fuel 64 covers every `uint32` ratio up to `2^31` (beyond
that the Go loop's `1 << lowBits` wraps and does not terminate, which this
model does not reproduce). -/
def ascendLoop : Nat → Nat → Nat → Nat
  | 0, l, _ => l
  | fuel + 1, l, uk => if 2 ^ l < uk then ascendLoop fuel (l + 1) uk else l

/-- The low-bit width chosen by `NewEliasEncoder(universe, count)`: find the
smallest `l` with `2^l >= universe/count`, then decrement if positive. -/
def efLowBits (univ count : Nat) : Nat :=
  if 0 < count ∧ count < univ then
    let lb := ascendLoop 64 0 (univ / count)
    if 0 < lb then lb - 1 else lb
  else 0

/-- The validation loop of `EliasEncoder.Encode`: each value below the
universe, strictly ascending. -/
def checkSeq (univ : Nat) : List Nat → Option Nat → Option String
  | [], _ => none
  | v :: rest, prev =>
      if v ≥ univ then some "value exceeds universe"
      else match prev with
        | some p =>
            if v ≤ p then some "sequence not sorted"
            else checkSeq univ rest (some v)
        | none => checkSeq univ rest (some v)

/-- The low-bits encoding loop of `EliasEncoder.Encode`: element `i` stores
its low `l` bits at bit offset `i*l`. -/
def efEncodeLow (l : Nat) : List Nat → Nat → BitArray → BitArray
  | [], _, ba => ba
  | v :: rest, i, ba =>
      efEncodeLow l rest (i + 1) (ba.WriteBits (i * l) (v &&& (2 ^ l - 1)) l)

/-- The high-bits encoding loop of `EliasEncoder.Encode`: the running `pos`
accumulates each element's high part (`pos += v >> l`), sets that bit when
in range, then steps past it (`pos++`). -/
def efEncodeHigh (l highSize : Nat) : List Nat → Nat → BitArray → BitArray
  | [], _, ba => ba
  | v :: rest, pos, ba =>
      let pos2 := pos + (v >>> l)
      let ba2 := if pos2 < highSize then ba.SetBit pos2 else ba
      efEncodeHigh l highSize rest (pos2 + 1) ba2

/-- `NewEliasEncoder(univ, len seq)` followed by `Encode(seq)`: header of
three `uint32`s, then the serialized low-bits and high-bits arrays. An
empty sequence yields an empty byte string. -/
def efEncode (univ : Nat) (seq : List Nat) : Except String (List Nat) :=
  if seq = [] then .ok []
  else match checkSeq univ seq none with
    | some e => .error e
    | none =>
        let count := seq.length
        let l := efLowBits univ count
        let header := u32Bytes univ ++ u32Bytes count ++ u32Bytes l
        let lowA := efEncodeLow l seq 0 (NewBitArray (count * l))
        let highSize := count + (univ >>> l) + 1
        let highA := efEncodeHigh l highSize seq 0 (NewBitArray highSize)
        .ok (header ++ lowA.writeTo ++ highA.writeTo)

/-- The inner scan of `EliasDecoder.Decode`: advance `highPos` over unset
bits, counting them in `currentHigh`, until a set bit or the end. Fuel at
least `Size + 1` makes it exact. -/
def efScanHigh (high : BitArray) : Nat → Nat → Nat → Nat × Nat
  | 0, hp, ch => (hp, ch)
  | fuel + 1, hp, ch =>
      if hp < high.Size ∧ ¬ high.GetBit hp then efScanHigh high fuel (hp + 1) (ch + 1)
      else (hp, ch)

/-- The element loop of `EliasDecoder.Decode`: `k` elements remaining,
element index `i`, cursor `hp` into the high array, running zero count
`ch`. -/
def efDecodeElems (low high : BitArray) (l : Nat) : Nat → Nat → Nat → Nat → Except String (List Nat)
  | 0, _, _, _ => .ok []
  | k + 1, i, hp, ch =>
      let s := efScanHigh high (high.Size + 1) hp ch
      if s.1 ≥ high.Size then .error "unexpected end of high bits array"
      else do
        let lowVal := low.ReadBits (i * l) l
        let v := ((s.2 <<< l) % 4294967296) ||| (lowVal % 4294967296)
        let rest ← efDecodeElems low high l k (i + 1) (s.1 + 1) s.2
        .ok (v :: rest)

/-- `NewEliasDecoder(data)` followed by `Decode()`: parse the header (error
when fewer than 12 bytes), return an empty sequence when the count is 0,
otherwise read both bit arrays and decode. -/
def efDecodeBytes (data : List Nat) : Except String (List Nat) :=
  if data.length < 12 then .error "encoded data too short"
  else do
    let (_univ, r1) ← readU32 data
    let (count, r2) ← readU32 r1
    let (l, r3) ← readU32 r2
    if count = 0 then .ok []
    else do
      let (lowA, r4) ← BitArray.readFrom r3
      let (highA, _r5) ← BitArray.readFrom r4
      efDecodeElems lowA highA l count 0 0 0

/-- Zig-zag encoding of `writeVarint`: the `uint32` bit pattern of
`(value << 1) ^ (value >> 31)` where `value` is an `int32` and `>>` is the
arithmetic shift (which, on the 32-bit two's-complement range, yields `-1`
for negative values and `0` otherwise). -/
def zigzagEncode (v : Int) : Nat :=
  (int32bits (v * 2)) ^^^ (int32bits (if v < 0 then -1 else 0))

/-- The emission loop of `writeVarint`: 7 payload bits per byte, the
continuation bit `0x80` on every byte but the last. Fuel 8 covers every
`uint32` input (at most 5 bytes are ever emitted). -/
def varintAux : Nat → Nat → List Nat
  | 0, u => [u % 256]
  | fuel + 1, u => if u < 128 then [u] else (u % 128 + 128) :: varintAux fuel (u / 128)

/-- `writeVarint(value)`: the bytes appended to the buffer. -/
def writeVarint (v : Int) : List Nat := varintAux 8 (zigzagEncode v)

/-- The accumulation loop of `readVarint`: OR `b & 0x7F` shifted by `shift`
into the `uint32` accumulator, stop at a byte without the continuation bit,
and fail with the overflow error when `shift` would reach 32. -/
def readVarintLoop : List Nat → Nat → Nat → Except String (Nat × List Nat)
  | [], _, _ => .error "EOF"
  | b :: rest, shift, acc =>
      let acc2 := acc ||| (((b &&& 127) <<< shift) % 4294967296)
      if b < 128 then .ok (acc2, rest)
      else if shift + 7 ≥ 32 then .error "varint overflow"
      else readVarintLoop rest (shift + 7) acc2

/-- Zig-zag decoding of `readVarint`: `int32((u >> 1) ^ (-(u & 1)))` in
`uint32` arithmetic. -/
def zigzagDecode (u : Nat) : Int :=
  toInt32 ((u >>> 1) ^^^ ((4294967296 - (u &&& 1)) % 4294967296))

/-- `readVarint`: read one varint from the head of the byte list, returning
the decoded `int32` and the remaining bytes. -/
def readVarint (bs : List Nat) : Except String (Int × List Nat) :=
  match readVarintLoop bs 0 0 with
  | .error e => .error e
  | .ok (u, rest) => .ok (zigzagDecode u, rest)

/-! ## DEFLATE (RFC 1951) decoder

`DecompressDeltas` runs the Go standard library's `flate.NewReader` to
completion before parsing varints. The decoder below is a direct model of
RFC 1951 (stored, fixed-Huffman and dynamic-Huffman blocks), with fuel for
the block and symbol loops; `inflate` uses fuel large enough for any input
that terminates. A truncated or malformed stream yields an error, as the
Go reader's `io.ErrUnexpectedEOF` / `CorruptInputError` do. -/

/-- Bit cursor into a byte list: remaining bytes plus the bit offset
(0..7) into the head byte. DEFLATE reads bits least-significant first. -/
structure BitStream where
  bytes : List Nat
  bitPos : Nat
deriving DecidableEq

/-- Read one bit. -/
def readBit (bs : BitStream) : Except String (Nat × BitStream) :=
  match bs.bytes with
  | [] => .error "unexpected EOF"
  | b :: rest =>
      let bit := (b >>> bs.bitPos) % 2
      if bs.bitPos ≥ 7 then .ok (bit, ⟨rest, 0⟩)
      else .ok (bit, ⟨b :: rest, bs.bitPos + 1⟩)

/-- Read `n` bits, least-significant first, into a number. -/
def readBitsLSB : Nat → BitStream → Except String (Nat × BitStream)
  | 0, bs => .ok (0, bs)
  | n + 1, bs => do
      let (bit, bs1) ← readBit bs
      let (restVal, bs2) ← readBitsLSB n bs1
      .ok (bit + 2 * restVal, bs2)

/-- Discard any partially consumed byte (stored-block alignment). -/
def alignByte (bs : BitStream) : BitStream :=
  if bs.bitPos = 0 then bs
  else ⟨bs.bytes.drop 1, 0⟩

/-- Take `n` whole bytes (stored-block payload). -/
def takeBytes : Nat → BitStream → Except String (List Nat × BitStream)
  | 0, bs => .ok ([], bs)
  | n + 1, bs =>
      match bs.bytes with
      | [] => .error "unexpected EOF"
      | b :: rest => do
          let (more, bs2) ← takeBytes n ⟨rest, bs.bitPos⟩
          .ok (b :: more, bs2)

/-- RFC 1951 §3.2.2: the first canonical code of each bit length, from the
per-length code counts of `lengths`. -/
def nextCodeFor (lengths : List Nat) : Nat → Nat
  | 0 => 0
  | l + 1 =>
      (nextCodeFor lengths l
        + (if l = 0 then 0 else (lengths.filter (fun x => x = l)).length)) * 2

/-- RFC 1951 §3.2.2: the canonical codeword assigned to symbol `i` (its
length's first code plus the number of earlier symbols of the same
length). Meaningful only when the symbol's length is nonzero. -/
def codeFor (lengths : List Nat) (i : Nat) : Nat :=
  nextCodeFor lengths (lengths.getD i 0)
    + ((lengths.take i).filter (fun x => x = lengths.getD i 0)).length

/-- Decode one Huffman symbol: read bits most-significant first, after each
bit look for a symbol whose canonical code of that length matches. Codes
are at most 15 bits. -/
def huffDecodeAux (lengths : List Nat) : Nat → Nat → Nat → BitStream → Except String (Nat × BitStream)
  | 0, _, _, _ => .error "invalid huffman code"
  | fuel + 1, len, code, bs => do
      let (bit, bs1) ← readBit bs
      let code2 := code * 2 + bit
      let len2 := len + 1
      match (List.range lengths.length).find?
          (fun i => lengths.getD i 0 = len2 ∧ codeFor lengths i = code2) with
      | some i => .ok (i, bs1)
      | none => huffDecodeAux lengths fuel len2 code2 bs1

/-- Decode one symbol with the code described by `lengths`. -/
def huffDecode (lengths : List Nat) (bs : BitStream) : Except String (Nat × BitStream) :=
  huffDecodeAux lengths 15 0 0 bs

/-- RFC 1951 §3.2.6: fixed literal/length code lengths. -/
def fixedLitLengths : List Nat :=
  (List.range 288).map fun i =>
    if i < 144 then 8 else if i < 256 then 9 else if i < 280 then 7 else 8

/-- RFC 1951 §3.2.6: fixed distance code lengths. -/
def fixedDistLengths : List Nat := List.replicate 30 5

/-- RFC 1951 §3.2.5: base match lengths for codes 257..285 (3..10 for the
first eight codes, then four codes per extra-bit width, 258 for the last:
the values 3,4,5,6,7,8,9,10,11,13,...,227,258 in closed form). -/
def lengthBase : List Nat :=
  (List.range 29).map fun i =>
    if i < 8 then i + 3
    else if i = 28 then 258
    else 2 ^ ((i - 4) / 4 + 2) + 3 + i % 4 * 2 ^ ((i - 4) / 4)

/-- RFC 1951 §3.2.5: extra bits for codes 257..285 (0 for the first eight
and the last, then one more bit every four codes). -/
def lengthExtra : List Nat :=
  (List.range 29).map fun i => if i < 8 ∨ i = 28 then 0 else (i - 4) / 4

/-- RFC 1951 §3.2.5: base distances for distance codes 0..29 (1..4 for the
first four codes, then two codes per extra-bit width: the values
1,2,3,4,5,7,9,13,...,16385,24577 in closed form). -/
def distBase : List Nat :=
  (List.range 30).map fun i =>
    if i < 4 then i + 1
    else 2 ^ (i / 2 - 1 + 1) + 1 + i % 2 * 2 ^ (i / 2 - 1)

/-- RFC 1951 §3.2.5: extra bits for distance codes 0..29 (0 for the first
four codes, then one more bit every two codes). -/
def distExtra : List Nat :=
  (List.range 30).map fun i => if i < 4 then 0 else i / 2 - 1

/-- Copy `len` bytes from `dist` back in the output (LZ77 back-reference;
overlapping copies repeat the produced bytes). -/
def lzCopy : Nat → Nat → List Nat → Except String (List Nat)
  | 0, _, out => .ok out
  | n + 1, dist, out =>
      if dist = 0 ∨ out.length < dist then .error "invalid distance"
      else lzCopy n dist (out ++ [out.getD (out.length - dist) 0])

/-- The symbol loop of a compressed block: literals are emitted, 256 ends
the block, 257..285 start a length/distance back-reference. -/
def inflateSymbols (litLen distLen : List Nat) : Nat → BitStream → List Nat → Except String (List Nat × BitStream)
  | 0, _, _ => .error "symbol loop fuel exhausted"
  | fuel + 1, bs, out => do
      let (sym, bs1) ← huffDecode litLen bs
      if sym < 256 then inflateSymbols litLen distLen fuel bs1 (out ++ [sym])
      else if sym = 256 then .ok (out, bs1)
      else if sym ≥ 286 then .error "invalid literal symbol"
      else do
        let (extra, bs2) ← readBitsLSB (lengthExtra.getD (sym - 257) 0) bs1
        let len := lengthBase.getD (sym - 257) 0 + extra
        let (dsym, bs3) ← huffDecode distLen bs2
        if dsym ≥ 30 then .error "invalid distance symbol"
        else do
          let (dextra, bs4) ← readBitsLSB (distExtra.getD dsym 0) bs3
          let dist := distBase.getD dsym 0 + dextra
          let out2 ← lzCopy len dist out
          inflateSymbols litLen distLen fuel bs4 out2

/-- RFC 1951 §3.2.7: the order in which code-length-code lengths are
stored. -/
def clcOrder : List Nat :=
  [15, 1, 14, 2, 13, 3, 12, 4, 11, 5, 10, 6, 9, 7, 8, 0, 18, 17, 16].reverse

/-- Read the code-length-code lengths of a dynamic block into a table of 19
entries (unlisted entries are 0); `i` is the position within `clcOrder`. -/
def readClcLengths (i : Nat) : Nat → BitStream → List Nat → Except String (List Nat × BitStream)
  | 0, bs, table => .ok (table, bs)
  | n + 1, bs, table => do
      let (v, bs1) ← readBitsLSB 3 bs
      readClcLengths (i + 1) n bs1 (table.set (clcOrder.getD i 0) v)

/-- Decode the literal and distance code lengths of a dynamic block,
including the repeat codes 16 (repeat previous), 17 and 18 (repeat
zero). -/
def readCodeLengths (clc : List Nat) (total : Nat) : Nat → BitStream → List Nat → Except String (List Nat × BitStream)
  | 0, _, _ => .error "code length loop fuel exhausted"
  | fuel + 1, bs, acc =>
      if acc.length ≥ total then
        if acc.length = total then .ok (acc, bs) else .error "too many code lengths"
      else do
        let (sym, bs1) ← huffDecode clc bs
        if sym < 16 then readCodeLengths clc total fuel bs1 (acc ++ [sym])
        else if sym = 16 then
          match acc.getLast? with
          | none => .error "repeat with no previous length"
          | some prev => do
              let (r, bs2) ← readBitsLSB 2 bs1
              readCodeLengths clc total fuel bs2 (acc ++ List.replicate (3 + r) prev)
        else if sym = 17 then do
          let (r, bs2) ← readBitsLSB 3 bs1
          readCodeLengths clc total fuel bs2 (acc ++ List.replicate (3 + r) 0)
        else if sym = 18 then do
          let (r, bs2) ← readBitsLSB 7 bs1
          readCodeLengths clc total fuel bs2 (acc ++ List.replicate (11 + r) 0)
        else .error "invalid code length symbol"

/-- The block loop of the DEFLATE decoder: read the final bit and block
type, dispatch on stored / fixed / dynamic, and stop after the final
block. -/
def inflateBlocks : Nat → BitStream → List Nat → Except String (List Nat)
  | 0, _, _ => .error "block loop fuel exhausted"
  | fuel + 1, bs, out => do
      let (finalBit, bs1) ← readBit bs
      let (btype, bs2) ← readBitsLSB 2 bs1
      if btype = 0 then do
        let bsA := alignByte bs2
        let (lenLo, bsB) ← takeBytes 2 bsA
        let (lenHi, bsC) ← takeBytes 2 bsB
        let len := lenLo.getD 0 0 + 256 * lenLo.getD 1 0
        let nlen := lenHi.getD 0 0 + 256 * lenHi.getD 1 0
        if nlen ≠ 65535 - len then .error "corrupt input: stored block length check"
        else do
          let (payload, bsD) ← takeBytes len bsC
          if finalBit = 1 then .ok (out ++ payload)
          else inflateBlocks fuel bsD (out ++ payload)
      else if btype = 1 then do
        let (out2, bs3) ← inflateSymbols fixedLitLengths fixedDistLengths
          (bs2.bytes.length * 8 + 300) bs2 out
        if finalBit = 1 then .ok out2 else inflateBlocks fuel bs3 out2
      else if btype = 2 then do
        let (hlit, bsA) ← readBitsLSB 5 bs2
        let (hdist, bsB) ← readBitsLSB 5 bsA
        let (hclen, bsC) ← readBitsLSB 4 bsB
        let (clc, bsD) ← readClcLengths 0 (hclen + 4) bsC (List.replicate 19 0)
        let (allLens, bsE) ← readCodeLengths clc (hlit + 257 + hdist + 1)
          (bsD.bytes.length * 8 + 600) bsD (([] : List Nat))
        let litLen := allLens.take (hlit + 257)
        let distLen := allLens.drop (hlit + 257)
        let (out2, bsF) ← inflateSymbols litLen distLen
          (bsE.bytes.length * 8 + 300) bsE out
        if finalBit = 1 then .ok out2 else inflateBlocks fuel bsF out2
      else .error "invalid block type"

/-- Run the DEFLATE decoder to completion on a byte stream (the effect of
`io.Copy`-style `ReadFrom` on Go's `flate.NewReader`). -/
def inflate (data : List Nat) : Except String (List Nat) :=
  inflateBlocks (data.length + 1) ⟨data, 0⟩ []

/-- The byte string Go's `flate.NewWriter(..., flate.BestCompression)`
emits when `Close()` is called with no data written through it: a final
fixed-Huffman block containing only the end-of-block symbol. -/
def flateEmptyStream : List Nat := [3, 0]

/-! ## Delta codec (`delta_encoding.go`) -/

/-- `DeltaEncoder.CompressDeltas`: the Go function opens a DEFLATE writer
over `buf`, but then appends each varint to `buf` directly (not through
the writer); `writer.Close()` finally appends the DEFLATE encoding of the
empty input. The produced bytes are therefore the raw varints followed by
`flateEmptyStream`. An empty delta list yields empty bytes. -/
def CompressDeltas (deltas : List Int) : List Nat :=
  if deltas = [] then []
  else (deltas.map writeVarint).flatten ++ flateEmptyStream

/-- The varint reading loop of `DeltaEncoder.DecompressDeltas`: read
varints until the buffer is exhausted, treating any `readVarint` error as
end of data (the loop `break`s and the partial list is kept). Fuel at
least `length + 1` is exact since each varint consumes a byte. -/
def readDeltasLoop : Nat → List Nat → List Int
  | 0, _ => []
  | _, [] => []
  | fuel + 1, bytes =>
      match readVarint bytes with
      | .error _ => []
      | .ok (v, rest) => v :: readDeltasLoop fuel rest

/-- `DeltaEncoder.DecompressDeltas`: empty input yields an empty list;
otherwise run the DEFLATE decoder to completion (propagating its errors),
then read varints until exhaustion. -/
def DecompressDeltas (compressed : List Nat) : Except String (List Int) :=
  if compressed = [] then .ok []
  else match inflate compressed with
    | .error e => .error e
    | .ok payload => .ok (readDeltasLoop (payload.length + 1) payload)

/-- Insert into a sorted list (ascending). -/
def insertSorted (x : Nat) : List Nat → List Nat
  | [] => [x]
  | y :: ys => if x ≤ y then x :: y :: ys else y :: insertSorted x ys

/-- Sort a list of gene indices ascending (the effect of the Go
`sort.Slice` call on the collected union). -/
def sortNat (l : List Nat) : List Nat := l.foldr insertSorted []

/-- Lookup in the Go map built from a row's indices and values (`refMap`):
missing genes read as 0; a later duplicate index overwrites an earlier
one. -/
def rowLookup (row : SparseRow) (gene : Nat) : Nat :=
  (row.Indices.zip row.Values).foldl (fun acc p => if p.1 = gene then p.2 else acc) 0

/-- Signed 32-bit wrap-around of an integer (Go `int32` arithmetic). -/
def wrap32 (v : Int) : Int := toInt32 (int32bits v)

/-- `DeltaEncoder.ComputeDelta`: over the sorted union of the two index
sets, emit `int32(target[g]) - int32(ref[g])` (missing values are 0); in
lossy mode deltas below the threshold are zeroed — the lossless instance
modelled here never is. -/
def ComputeDelta (target reference : SparseRow) : List Int :=
  let genes := sortNat (target.Indices ++ reference.Indices).dedup
  genes.map fun g =>
    wrap32 (toInt32 (rowLookup target g) - toInt32 (rowLookup reference g))

/-- `JaccardSimilarity` on two gene-index lists, with Go's `float64`
division modelled by exact rationals: the `intersection` counter is
incremented once per element of `genesB` found in `genesA`, and the union
is `|setA| + |setB| - intersection` in (possibly negative) integer
arithmetic. -/
def JaccardSimilarity (genesA genesB : List Nat) : ℚ :=
  if genesA = [] ∧ genesB = [] then 1
  else if genesA = [] ∨ genesB = [] then 0
  else
    let intersection : Nat := (genesB.filter (fun g => g ∈ genesA)).length
    let unionCard : Int :=
      (genesA.dedup.length : Int) + (genesB.dedup.length : Int) - intersection
    if unionCard = 0 then 1
    else Rat.divInt intersection unionCard

/-- The candidate loop of `DeltaEncoder.FindBestReference` over the zipped
candidates and their caller-supplied indices, carrying the best similarity
(initially `-1.0`) and best index (initially `-1`); an update requires
strict improvement and similarity strictly above `0.1`. -/
def findBestAux (target : SparseRow) : List (SparseRow × Int) → ℚ → Int → Int
  | [], _, bi => bi
  | (c, ci) :: rest, best, bi =>
      let s := JaccardSimilarity target.Indices c.Indices
      if s > best ∧ s > mkRat 1 10 then findBestAux target rest s ci
      else findBestAux target rest best bi

/-- `DeltaEncoder.FindBestReference`: `-1` for an empty pool, otherwise
the loop above. -/
def FindBestReference (target : SparseRow) (candidates : List SparseRow)
    (candidateIndices : List Int) : Int :=
  if candidates = [] then -1
  else findBestAux target (candidates.zip candidateIndices) (-1) (-1)

/-- `DeltaEncoder.ReconstructFromDelta`: walk `geneIndices` positionally
against `deltas` (stopping at the shorter of the two), add each delta to
the reference's value at that gene (`int32` arithmetic), and keep the pair
exactly when the sum is positive. -/
def ReconstructFromDelta (reference : SparseRow) (deltas : List Int)
    (geneIndices : List Nat) : SparseRow :=
  let kept := (geneIndices.zip deltas).filterMap fun p =>
    let newVal := wrap32 (toInt32 (rowLookup reference p.1) + p.2)
    if newVal > 0 then some (p.1, newVal.toNat) else none
  ⟨kept.map Prod.fst, kept.map Prod.snd⟩

/-! ## Row decompression (`decompressor.go`) -/

/-- The body of `Decompressor.decompressCell` before its final
length-reconciliation step: decode the Elias-Fano indices when present,
then the delta bytes when present; with a valid reference use
`ReconstructFromDelta` on the row's own decoded indices, otherwise require
the delta count to match the index count and clamp negative deltas to
zero. -/
def decompressCellCore (cr : CompressedRow) (matrix : List SparseRow)
    (_numGenes : Nat) : Except String SparseRow := do
  let indices ←
    if cr.EliasGenes = [] then pure ([] : List Nat)
    else efDecodeBytes cr.EliasGenes
  if cr.DeltaValues = [] then .ok ⟨indices, []⟩
  else do
    let deltas ← DecompressDeltas cr.DeltaValues
    if 0 ≤ cr.RefCell ∧ cr.RefCell.toNat < matrix.length then
      .ok (ReconstructFromDelta (matrix.getD cr.RefCell.toNat default) deltas indices)
    else
      if deltas.length ≠ indices.length then
        .error "mismatch between number of genes and values"
      else
        .ok ⟨indices, deltas.map fun d => if d < 0 then 0 else d.toNat⟩

/-- The final step of `decompressCell`: truncate both lists to the shorter
length. -/
def truncRow (r : SparseRow) : SparseRow :=
  let m := min r.Indices.length r.Values.length
  ⟨r.Indices.take m, r.Values.take m⟩

/-- `Decompressor.decompressCell` (lossless header): core decode followed
by the silent truncation to equal lengths. -/
def decompressCell (cr : CompressedRow) (matrix : List SparseRow)
    (numGenes : Nat) : Except String SparseRow :=
  (decompressCellCore cr matrix numGenes).map truncRow

/-- One worker step of `Decompressor.Decompress` at whole-cell
granularity: decode cell `idx` against the currently published matrix;
on success publish the row, on failure record the first error and leave
the slot untouched (the Go worker `continue`s). -/
def decompressStep (rows : List CompressedRow) (numGenes : Nat)
    (st : List SparseRow × Option String) (idx : Nat) : List SparseRow × Option String :=
  match decompressCell (rows.getD idx default) st.1 numGenes with
  | .error e => (st.1, match st.2 with | some e0 => some e0 | none => some e)
  | .ok r => (st.1.set idx r, st.2)

/-- `Decompressor.Decompress` under a given interleaving: the worker pool
draws cell indices from the jobs channel in some order (the schedule);
every cell starts from the shared `matrix`, initially all zero rows. The
Go driver queues all cells at once, so any permutation of the cell indices
is a possible schedule. -/
def runSchedule (rows : List CompressedRow) (numGenes : Nat)
    (order : List Nat) : List SparseRow × Option String :=
  order.foldl (decompressStep rows numGenes)
    (List.replicate rows.length default, none)

/-- The decompression driver's result under the in-order schedule: the
decoded matrix, or the first recorded error. -/
def Decompress (rows : List CompressedRow) (numGenes : Nat) : Except String (List SparseRow) :=
  match runSchedule rows numGenes (List.range rows.length) with
  | (m, none) => .ok m
  | (_, some e) => .error e

/-! ## Compression side -/

/-- Modelled from the spec: `Compressor.compressCell` — the compressor body
is missing from the sources (compressor.go breaks off after
`NewCompressor`), so the per-row encoder is taken from §4.G of the
specification, lossless mode: (1) Elias-Fano encode the row's indices with
universe `num_genes` (the source `EliasEncoder`), (2) select a reference
among the previously seen rows with the source `FindBestReference`,
(3) deltas are `ComputeDelta` against the reference, or the raw values
when there is none, (4) the delta bytes come from the source
`CompressDeltas`. -/
def specCompressCell (numGenes : Nat) (prior : List SparseRow)
    (row : SparseRow) : Except String CompressedRow := do
  let ef ← efEncode numGenes row.Indices
  let ref := FindBestReference row prior ((List.range prior.length).map Int.ofNat)
  let deltas :=
    if 0 ≤ ref ∧ ref.toNat < prior.length then
      ComputeDelta row (prior.getD ref.toNat default)
    else row.Values.map fun v => toInt32 v
  .ok ⟨ef, CompressDeltas deltas, ref, row.Indices.length, numGenes⟩

/-- Modelled from the spec: `Compressor.Compress` in lossless mode —
encode the rows in index order, each against the list of earlier rows. -/
def specCompress (numGenes : Nat) (rows : List SparseRow) : Except String (List CompressedRow) :=
  let step := fun (acc : List SparseRow × List CompressedRow) (row : SparseRow) =>
    match specCompressCell numGenes acc.1 row with
    | .error _ => none
    | .ok cr => some (acc.1 ++ [row], acc.2 ++ [cr])
  match rows.foldl (fun acc row => acc.bind (fun a => step a row)) (some ([], [])) with
  | none => .error "compression failed"
  | some (_, crs) => .ok crs

/-- Modelled from the spec: the union-based reconstruction of §4.E/§4.G —
`reconstruct(reference, deltas, union_indices)` where `union_indices` is
the sorted union of the decoded row indices and the reference row's
indices. Used to compare the source decoder against the specified one. -/
def specReconstructUnion (reference : SparseRow) (deltas : List Int)
    (ownIndices : List Nat) : SparseRow :=
  let unionIndices := sortNat (ownIndices ++ reference.Indices).dedup
  ReconstructFromDelta reference deltas unionIndices

/-! ## Concrete inputs used by the verified properties -/

/-- The Elias-Fano byte string for the one-element sequence `[0]` with
universe 1 (equal to `efEncode 1 [0]`): header `u=1, k=1, l=0`, an empty
low-bits array and a 3-bit high array with bit 0 set. -/
def efZeroRowBytes : List Nat :=
  u32Bytes 1 ++ u32Bytes 1 ++ u32Bytes 0 ++ u32Bytes 0 ++ u32Bytes 3 ++ u64Bytes 1

/-- An Elias-Fano byte string decoding to `[1, 4, 9]` (universe 16, `l=0`,
high bits at positions 1, 5 and 11). -/
def ef149Bytes : List Nat :=
  u32Bytes 16 ++ u32Bytes 3 ++ u32Bytes 0 ++ u32Bytes 0 ++ u32Bytes 12 ++ u64Bytes 2082

/-- A stored-block DEFLATE stream whose payload is the varint encoding of
the union deltas `[1, 0, -1, 2]` (bytes `02 00 01 04`). -/
def unionDeltaBytes : List Nat := [1, 4, 0, 251, 255, 2, 0, 1, 4]

/-- A stored-block DEFLATE stream whose payload is the varint `[0x0A]`,
decoding to the single delta 5. -/
def deltaBytes5 : List Nat := [1, 1, 0, 254, 255, 10]

/-- A stored-block DEFLATE stream whose payload is the varint `[0x02]`,
decoding to the single delta 1. -/
def deltaBytes1 : List Nat := [1, 1, 0, 254, 255, 2]

/-- A two-row container in which row 1 references row 0: row 0 has value 5
at gene 0 (no reference), row 1 adds the delta 1 to its reference's value
at gene 0. -/
def rows9 : List CompressedRow :=
  [⟨efZeroRowBytes, deltaBytes5, -1, 1, 1⟩, ⟨efZeroRowBytes, deltaBytes1, 0, 1, 1⟩]

/-- A compressed row whose Elias-Fano bytes decode to `[0]` but whose delta
byte string is empty, so the decoded index and value lists disagree in
length. -/
def crTrunc : CompressedRow := ⟨efZeroRowBytes, [], -1, 1, 1⟩

/-- A stored-block DEFLATE stream whose payload is a valid varint `0x02`
followed by six further bytes forming a varint longer than 5 bytes. -/
def c8Bytes : List Nat := [1, 6, 0, 249, 255, 2, 128, 128, 128, 128, 128]

/-! ## Supporting lemmas -/

/-- Masking with `2^n - 1` is reduction modulo `2^n`. -/
theorem land_mask (x n : Nat) : x &&& (2 ^ n - 1) = x % 2 ^ n := by
  apply Nat.eq_of_testBit_eq; intro i
  rw [Nat.testBit_land, Nat.testBit_two_pow_sub_one, Nat.testBit_mod_two_pow, Bool.and_comm]

/-- OR-ing a value below `2^s` with a left shift by `s` is addition. -/
theorem lor_disjoint_add (a b s : Nat) (h : a < 2 ^ s) : a ||| (b <<< s) = a + b * 2 ^ s := by
  have hrw : a + b * 2 ^ s = 2 ^ s * b + a := by ring
  apply Nat.eq_of_testBit_eq; intro i
  rw [Nat.testBit_lor, Nat.testBit_shiftLeft, hrw, Nat.testBit_mul_pow_two_add b h i]
  by_cases hi : i < s
  · simp [hi, Nat.not_le.mpr hi]
  · have hge : i ≥ s := Nat.not_lt.mp hi
    have ha : a.testBit i = false :=
      Nat.testBit_lt_two_pow (Nat.lt_of_lt_of_le h (Nat.pow_le_pow_right (by omega) hge))
    simp [hi, hge, ha]

/-- The varint payload mask. -/
theorem land127 (x : Nat) : x &&& 127 = x % 128 := by
  have h := land_mask x 7
  norm_num at h
  exact h

/-- The parity mask. -/
theorem land1 (x : Nat) : x &&& 1 = x % 2 := by
  have h := land_mask x 1
  norm_num at h ⊢
  try exact h
  try rfl

/-- A value below `2^(32-s)` shifted left by `s` stays below `2^32`. -/
theorem mul_pow_lt32 (u s : Nat) (h2 : u < 2 ^ (32 - s)) : u * 2 ^ s < 4294967296 := by
  rcases le_or_lt s 32 with hs | hs
  · calc u * 2 ^ s < 2 ^ (32 - s) * 2 ^ s :=
          Nat.mul_lt_mul_of_pos_right h2 (Nat.two_pow_pos s)
      _ = 2 ^ (32 - s + s) := by rw [pow_add]
      _ = 2 ^ 32 := by congr 1; omega
      _ = 4294967296 := by norm_num
  · have h0 : 32 - s = 0 := by omega
    rw [h0] at h2
    have : u = 0 := by omega
    subst this
    simp

/-- The varint read loop inverts the varint write loop: reading the
emitted bytes at shift `s` with an accumulator below `2^s` recovers
`acc + u * 2^s` and leaves the trailing bytes untouched. -/
theorem varint_loop_spec : ∀ (fuel u s acc : Nat) (rest : List Nat),
    u < 128 ^ fuel → u < 2 ^ (32 - s) → acc < 2 ^ s →
    readVarintLoop (varintAux fuel u ++ rest) s acc = .ok (acc + u * 2 ^ s, rest) := by
  intro fuel
  induction fuel with
  | zero =>
      intro u s acc rest h1 h2 hacc
      have hu : u = 0 := by simpa using h1
      subst hu
      simp only [varintAux, Nat.zero_mod, List.cons_append, List.nil_append, readVarintLoop]
      have hz : (0 : Nat) &&& 127 = 0 := rfl
      rw [hz, Nat.zero_shiftLeft, Nat.zero_mod]
      simp
  | succ f ih =>
      intro u s acc rest h1 h2 hacc
      by_cases hu : u < 128
      · simp only [varintAux, if_pos hu, List.cons_append, List.nil_append, readVarintLoop]
        have hm : u &&& 127 = u := by
          rw [land127]
          exact Nat.mod_eq_of_lt hu
        have hlt32 : u * 2 ^ s < 4294967296 := mul_pow_lt32 u s h2
        have hadd := lor_disjoint_add acc u s hacc
        rw [Nat.shiftLeft_eq] at hadd
        rw [hm, Nat.shiftLeft_eq, Nat.mod_eq_of_lt hlt32, hadd]
      · have hge : 128 ≤ u := Nat.not_lt.mp hu
        have h7 : 7 < 32 - s := by
          by_contra hcon
          have hs7 : 32 - s ≤ 7 := by omega
          have : (2 : Nat) ^ (32 - s) ≤ 2 ^ 7 := Nat.pow_le_pow_right (by omega) hs7
          omega
        simp only [varintAux, if_neg hu, List.cons_append, readVarintLoop]
        have hb : ¬ (u % 128 + 128 < 128) := by omega
        have hsh : ¬ (s + 7 ≥ 32) := by omega
        rw [if_neg hb, if_neg hsh]
        have hm : (u % 128 + 128) &&& 127 = u % 128 := by
          rw [land127]
          omega
        have hlt32 : u % 128 * 2 ^ s < 4294967296 := by
          apply mul_pow_lt32
          have hmod : u % 128 < 128 := Nat.mod_lt _ (by omega)
          have hpw : (128 : Nat) ≤ 2 ^ (32 - s) := by
            calc (128 : Nat) = 2 ^ 7 := by norm_num
              _ ≤ 2 ^ (32 - s) := Nat.pow_le_pow_right (by omega) (by omega)
          omega
        have hadd := lor_disjoint_add acc (u % 128) s hacc
        rw [Nat.shiftLeft_eq] at hadd
        rw [hm, Nat.shiftLeft_eq, Nat.mod_eq_of_lt hlt32, hadd]
        have hq1 : u / 128 < 128 ^ f := by
          rw [Nat.div_lt_iff_lt_mul (by norm_num)]
          calc u < 128 ^ (f + 1) := h1
            _ = 128 ^ f * 128 := by rw [pow_succ]
        have hq2 : u / 128 < 2 ^ (32 - (s + 7)) := by
          rw [Nat.div_lt_iff_lt_mul (by norm_num)]
          calc u < 2 ^ (32 - s) := h2
            _ = 2 ^ (32 - (s + 7)) * 128 := by
                rw [show (128 : Nat) = 2 ^ 7 by norm_num, ← pow_add]
                congr 1
                omega
        have hacc2 : acc + u % 128 * 2 ^ s < 2 ^ (s + 7) := by
          have : u % 128 * 2 ^ s ≤ 127 * 2 ^ s :=
            Nat.mul_le_mul_right _ (by omega)
          have hps : 2 ^ (s + 7) = 128 * 2 ^ s := by rw [pow_add]; ring
          omega
        rw [ih (u / 128) (s + 7) (acc + u % 128 * 2 ^ s) rest hq1 hq2 hacc2]
        have hval : acc + u % 128 * 2 ^ s + u / 128 * 2 ^ (s + 7) = acc + u * 2 ^ s := by
          have hu2 : 128 * (u / 128) + u % 128 = u := Nat.div_add_mod u 128
          have hps : 2 ^ (s + 7) = 2 ^ s * 128 := by rw [pow_add]; ring
          calc acc + u % 128 * 2 ^ s + u / 128 * 2 ^ (s + 7)
              = acc + (128 * (u / 128) + u % 128) * 2 ^ s := by rw [hps]; ring
            _ = acc + u * 2 ^ s := by rw [hu2]
        rw [hval]

/-- XOR acts digit-wise on a binary digit decomposition. -/
theorem xor_bit_decomp (a b ra rb : Nat) (hra : ra < 2) (hrb : rb < 2) :
    (2 * a + ra) ^^^ (2 * b + rb) = 2 * (a ^^^ b) + (ra ^^^ rb) := by
  apply Nat.eq_of_testBit_eq
  intro i
  cases i with
  | zero =>
      rw [Nat.testBit_xor, Nat.testBit_zero, Nat.testBit_zero, Nat.testBit_zero]
      have h1 : (2 * a + ra) % 2 = ra := by omega
      have h2 : (2 * b + rb) % 2 = rb := by omega
      have h3 : (2 * (a ^^^ b) + (ra ^^^ rb)) % 2 = (ra ^^^ rb) % 2 := by omega
      rw [h1, h2, h3]
      interval_cases ra <;> interval_cases rb <;> decide
  | succ i =>
      rw [Nat.testBit_xor, Nat.testBit_succ, Nat.testBit_succ, Nat.testBit_succ]
      have h1 : (2 * a + ra) / 2 = a := by omega
      have h2 : (2 * b + rb) / 2 = b := by omega
      have h3 : (2 * (a ^^^ b) + (ra ^^^ rb)) / 2 = a ^^^ b := by
        have hxr : (ra ^^^ rb) < 2 := by interval_cases ra <;> interval_cases rb <;> decide
        omega
      rw [h1, h2, h3, Nat.testBit_xor]

/-- XOR with the all-ones mask of width `w` is complementation. -/
theorem xor_mask_ones : ∀ (w x : Nat), x < 2 ^ w → x ^^^ (2 ^ w - 1) = 2 ^ w - 1 - x := by
  intro w
  induction w with
  | zero => intro x hx; interval_cases x; decide
  | succ w ih =>
      intro x hx
      have hpow : 1 ≤ 2 ^ w := Nat.one_le_two_pow
      have hp2 : 2 ^ (w + 1) = 2 * 2 ^ w := by ring
      have hx2 : x / 2 < 2 ^ w := by omega
      have hm : 2 ^ (w + 1) - 1 = 2 * (2 ^ w - 1) + 1 := by omega
      have hd : x = 2 * (x / 2) + x % 2 := by omega
      have hxor1 : ((x % 2) ^^^ 1) = 1 - x % 2 := by
        have hr : x % 2 < 2 := Nat.mod_lt _ (by omega)
        interval_cases h : (x % 2) <;> decide
      calc x ^^^ (2 ^ (w + 1) - 1)
          = (2 * (x / 2) + x % 2) ^^^ (2 * (2 ^ w - 1) + 1) := by rw [← hd, ← hm]
        _ = 2 * ((x / 2) ^^^ (2 ^ w - 1)) + ((x % 2) ^^^ 1) :=
            xor_bit_decomp _ _ _ _ (Nat.mod_lt _ (by omega)) (by omega)
        _ = 2 ^ (w + 1) - 1 - x := by
            rw [ih _ hx2, hxor1]; omega

/-- Zig-zag encoding of a non-negative `int32` is doubling. -/
theorem zigzagEncode_nonneg (v : Int) (h0 : 0 ≤ v) (h1 : v < 2147483648) :
    zigzagEncode v = (2 * v).toNat := by
  unfold zigzagEncode int32bits
  rw [if_neg (by omega)]
  have he : Int.emod (v * 2) 4294967296 = v * 2 := Int.emod_eq_of_lt (by omega) (by omega)
  have hz : Int.emod 0 4294967296 = 0 := by decide
  rw [he, hz]
  have : (0 : Int).toNat = 0 := rfl
  rw [this, Nat.xor_zero]
  omega

/-- Zig-zag encoding of a negative `int32` is `-2v - 1`. -/
theorem zigzagEncode_neg (v : Int) (h0 : -2147483648 ≤ v) (h1 : v < 0) :
    zigzagEncode v = ((-2) * v - 1).toNat := by
  unfold zigzagEncode int32bits
  rw [if_pos h1]
  have he : Int.emod (v * 2) 4294967296 = v * 2 + 4294967296 := by
    have h2 : Int.emod (v * 2 + 4294967296 * 1) 4294967296 = Int.emod (v * 2) 4294967296 :=
      Int.add_mul_emod_self_left (v * 2) 4294967296 1
    have h3 : Int.emod (v * 2 + 4294967296 * 1) 4294967296 = v * 2 + 4294967296 * 1 :=
      Int.emod_eq_of_lt (by omega) (by omega)
    omega
  have hn : Int.emod (-1) 4294967296 = 4294967295 := by decide
  rw [he, hn]
  have ha : (v * 2 + 4294967296).toNat < 2 ^ 32 := by omega
  have h32 : ((4294967295 : Int)).toNat = 2 ^ 32 - 1 := rfl
  rw [h32, xor_mask_ones 32 _ ha]
  omega

/-- Zig-zag decoding inverts zig-zag encoding on the `int32` range. -/
theorem zigzag_roundtrip (v : Int) (h0 : -2147483648 ≤ v) (h1 : v < 2147483648) :
    zigzagDecode (zigzagEncode v) = v := by
  rcases le_or_lt 0 v with hv | hv
  · rw [zigzagEncode_nonneg v hv h1]
    unfold zigzagDecode
    have hn : (2 * v).toNat = 2 * v.toNat := by omega
    rw [hn, land1]
    have h2 : 2 * v.toNat % 2 = 0 := by omega
    rw [h2, Nat.sub_zero, Nat.mod_self, Nat.xor_zero, Nat.shiftRight_succ, Nat.shiftRight_zero]
    have h3 : 2 * v.toNat / 2 = v.toNat := by omega
    rw [h3]
    unfold toInt32
    rw [Nat.mod_eq_of_lt (by omega), if_pos (by omega)]
    omega
  · rw [zigzagEncode_neg v h0 hv]
    unfold zigzagDecode
    have hm : ((-2) * v - 1).toNat = 2 * (-v).toNat - 1 := by omega
    have hm1 : 1 ≤ (-v).toNat := by omega
    rw [hm, land1]
    have h2 : (2 * (-v).toNat - 1) % 2 = 1 := by omega
    rw [h2]
    have h3 : (4294967296 - 1) % 4294967296 = 4294967295 := by norm_num
    rw [h3, Nat.shiftRight_succ, Nat.shiftRight_zero]
    have h4 : (2 * (-v).toNat - 1) / 2 = (-v).toNat - 1 := by omega
    rw [h4]
    have h5 : (-v).toNat - 1 < 2 ^ 32 := by omega
    have h6 : (4294967295 : Nat) = 2 ^ 32 - 1 := by norm_num
    rw [h6, xor_mask_ones 32 _ h5]
    unfold toInt32
    rw [Nat.mod_eq_of_lt (by omega), if_neg (by omega)]
    omega

/-- The zig-zag code of an `int32` fits in 32 bits. -/
theorem zigzagEncode_lt (v : Int) (h0 : -2147483648 ≤ v) (h1 : v < 2147483648) :
    zigzagEncode v < 4294967296 := by
  rcases le_or_lt 0 v with hv | hv
  · rw [zigzagEncode_nonneg v hv h1]; omega
  · rw [zigzagEncode_neg v h0 hv]; omega

/-- Shape of the emitted varint bytes: every byte but the last carries the
continuation bit, the last byte is below `0x80`, and the last byte is zero
only for the input 0. -/
theorem varintAux_shape : ∀ (fuel u : Nat), u < 128 ^ fuel →
    (∀ b ∈ (varintAux fuel u).dropLast, 128 ≤ b) ∧
    ∃ lb, (varintAux fuel u).getLast? = some lb ∧ lb < 128 ∧ (lb = 0 → u = 0) := by
  intro fuel
  induction fuel with
  | zero =>
      intro u h1
      have hu : u = 0 := by simpa using h1
      subst hu
      refine ⟨by simp [varintAux], 0, by simp [varintAux], by omega, fun _ => rfl⟩
  | succ f ih =>
      intro u h1
      by_cases hu : u < 128
      · simp only [varintAux, if_pos hu]
        exact ⟨by simp, u, by simp, hu, fun h => h⟩
      · simp only [varintAux, if_neg hu]
        have hq : u / 128 < 128 ^ f := by
          rw [Nat.div_lt_iff_lt_mul (by norm_num)]
          calc u < 128 ^ (f + 1) := h1
            _ = 128 ^ f * 128 := by rw [pow_succ]
        obtain ⟨hdrop, lb, hlast, hlb, hzero⟩ := ih (u / 128) hq
        have hne : varintAux f (u / 128) ≠ [] := by
          cases f with
          | zero => simp [varintAux]
          | succ f2 =>
              by_cases h2 : u / 128 < 128 <;> simp [varintAux, h2]
        obtain ⟨hd, tl, ht⟩ := List.exists_cons_of_ne_nil hne
        constructor
        · intro b hb
          rw [ht] at hb
          rw [List.dropLast_cons₂] at hb
          rcases List.mem_cons.mp hb with hbc | hbt
          · omega
          · exact hdrop b (by rw [ht]; exact hbt)
        · refine ⟨lb, ?_, hlb, ?_⟩
          · rw [ht, List.getLast?_cons_cons, ← ht]
            exact hlast
          · intro hlb0
            have := hzero hlb0
            omega

/-- The search loop of `NewEliasEncoder` finds the least exponent at least
`l` whose power of two reaches the ratio, given enough fuel. -/
theorem ascendLoop_spec : ∀ (fuel l uk : Nat), uk ≤ 2 ^ (l + fuel) →
    (∀ i, i < l → 2 ^ i < uk) →
    uk ≤ 2 ^ ascendLoop fuel l uk ∧ ∀ i, i < ascendLoop fuel l uk → 2 ^ i < uk := by
  intro fuel
  induction fuel with
  | zero =>
      intro l uk hb hinv
      simp only [ascendLoop]
      exact ⟨by simpa using hb, hinv⟩
  | succ f ih =>
      intro l uk hb hinv
      simp only [ascendLoop]
      by_cases hc : 2 ^ l < uk
      · rw [if_pos hc]
        apply ih (l + 1) uk
        · calc uk ≤ 2 ^ (l + (f + 1)) := hb
            _ = 2 ^ (l + 1 + f) := by ring_nf
        · intro i hi
          rcases Nat.lt_or_ge i l with h | h
          · exact hinv i h
          · have : i = l := by omega
            subst this
            exact hc
      · rw [if_neg hc]
        exact ⟨by omega, hinv⟩

/-- A reference-selector loop that never finds a strict improvement above
the threshold returns the incoming best index. -/
theorem findBestAux_none (target : SparseRow) :
    ∀ (pairs : List (SparseRow × Int)) (best : ℚ) (bi : Int),
    (∀ p ∈ pairs, ¬(JaccardSimilarity target.Indices p.1.Indices > best ∧
        JaccardSimilarity target.Indices p.1.Indices > mkRat 1 10)) →
    findBestAux target pairs best bi = bi := by
  intro pairs
  induction pairs with
  | nil => intro best bi _; rfl
  | cons p rest ih =>
      intro best bi hall
      obtain ⟨c, ci⟩ := p
      simp only [findBestAux]
      rw [if_neg (hall (c, ci) (List.mem_cons_self _ _))]
      exact ih best bi (fun q hq => hall q (List.mem_cons_of_mem _ hq))

/-- When some candidate strictly improves on the incoming best and exceeds
the threshold, the loop returns the stored index of the earliest candidate
of maximal similarity. -/
theorem findBestAux_some (target : SparseRow) :
    ∀ (pairs : List (SparseRow × Int)) (best : ℚ) (bi : Int),
    (∃ p ∈ pairs, JaccardSimilarity target.Indices p.1.Indices > best ∧
        JaccardSimilarity target.Indices p.1.Indices > mkRat 1 10) →
    ∃ i, ∃ h : i < pairs.length,
      findBestAux target pairs best bi = (pairs.get ⟨i, h⟩).2 ∧
      JaccardSimilarity target.Indices (pairs.get ⟨i, h⟩).1.Indices > best ∧
      JaccardSimilarity target.Indices (pairs.get ⟨i, h⟩).1.Indices > mkRat 1 10 ∧
      (∀ j (hj : j < pairs.length),
        JaccardSimilarity target.Indices (pairs.get ⟨j, hj⟩).1.Indices ≤
          JaccardSimilarity target.Indices (pairs.get ⟨i, h⟩).1.Indices) ∧
      (∀ j (hj : j < pairs.length), j < i →
        JaccardSimilarity target.Indices (pairs.get ⟨j, hj⟩).1.Indices <
          JaccardSimilarity target.Indices (pairs.get ⟨i, h⟩).1.Indices) := by
  intro pairs
  induction pairs with
  | nil => intro best bi hex; simp at hex
  | cons p rest ih =>
      intro best bi hex
      obtain ⟨c, ci⟩ := p
      set s := JaccardSimilarity target.Indices c.Indices with hs
      simp only [findBestAux]
      by_cases hc : s > best ∧ s > mkRat 1 10
      · rw [if_pos hc]
        by_cases hrest : ∃ q ∈ rest, JaccardSimilarity target.Indices q.1.Indices > s ∧
            JaccardSimilarity target.Indices q.1.Indices > mkRat 1 10
        · obtain ⟨i2, hi2, heq, hgt, hgt10, hmax, hpref⟩ := ih s ci hrest
          refine ⟨i2 + 1, by simpa using Nat.succ_lt_succ hi2, ?_, ?_, ?_, ?_, ?_⟩
          · simpa using heq
          · simp only [List.get_cons_succ]
            exact lt_trans hc.1 hgt
          · simpa using hgt10
          · intro j hj
            cases j with
            | zero => simpa using le_of_lt hgt
            | succ j2 =>
                have hj2 : j2 < rest.length := by simpa using hj
                simpa using hmax j2 hj2
          · intro j hj hji
            cases j with
            | zero => simpa using hgt
            | succ j2 =>
                have hj2 : j2 < rest.length := by simpa using hj
                simpa using hpref j2 hj2 (by omega)
        · rw [findBestAux_none target rest s ci (by push_neg at hrest ⊢; exact fun q hq => hrest q hq)]
          refine ⟨0, by simp, by simp, by simpa using hc.1, by simpa using hc.2, ?_, ?_⟩
          · intro j hj
            cases j with
            | zero => simp
            | succ j2 =>
                have hj2 : j2 < rest.length := by simpa using hj
                push_neg at hrest
                have := hrest (rest.get ⟨j2, hj2⟩) (rest.get_mem _ _)
                simp only [List.get_cons_succ, List.get_cons_zero]
                rcases le_or_lt (JaccardSimilarity target.Indices
                    (rest.get ⟨j2, hj2⟩).1.Indices) s with hle | hgt
                · exact hle
                · have h10 := this hgt
                  calc JaccardSimilarity target.Indices (rest.get ⟨j2, hj2⟩).1.Indices
                      ≤ mkRat 1 10 := h10
                    _ ≤ s := le_of_lt hc.2
          · intro j hj hji
            omega
      · rw [if_neg hc]
        have hrest : ∃ q ∈ rest, JaccardSimilarity target.Indices q.1.Indices > best ∧
            JaccardSimilarity target.Indices q.1.Indices > mkRat 1 10 := by
          obtain ⟨q, hq, hq1, hq2⟩ := hex
          rcases List.mem_cons.mp hq with hq0 | hqr
          · exfalso
            apply hc
            rw [hq0] at hq1 hq2
            exact ⟨hq1, hq2⟩
          · exact ⟨q, hqr, hq1, hq2⟩
        obtain ⟨i2, hi2, heq, hgt, hgt10, hmax, hpref⟩ := ih best bi hrest
        refine ⟨i2 + 1, by simpa using Nat.succ_lt_succ hi2, ?_, ?_, ?_, ?_, ?_⟩
        · simpa using heq
        · simpa using hgt
        · simpa using hgt10
        · intro j hj
          cases j with
          | zero =>
              simp only [List.get_cons_succ, List.get_cons_zero]
              rw [not_and_or] at hc
              rcases hc with hle | h10
              · push_neg at hle
                exact le_of_lt (lt_of_le_of_lt hle hgt)
              · push_neg at h10
                exact le_of_lt (lt_of_le_of_lt h10 hgt10)
          | succ j2 =>
              have hj2 : j2 < rest.length := by simpa using hj
              simpa using hmax j2 hj2
        · intro j hj hji
          cases j with
          | zero =>
              simp only [List.get_cons_succ, List.get_cons_zero]
              rw [not_and_or] at hc
              rcases hc with hle | h10
              · push_neg at hle
                exact lt_of_le_of_lt hle hgt
              · push_neg at h10
                exact lt_of_le_of_lt h10 hgt10
          | succ j2 =>
              have hj2 : j2 < rest.length := by simpa using hj
              simpa using hpref j2 hj2 (by omega)

/-! ## Verified properties of the claims -/

/-- Claim C1: the lossless round trip `decompress (compress rows) = rows`
fails on the code. For the single valid row with index 0 and value 64
(one gene), the compressed delta bytes are the raw varint `80 01` followed
by the empty DEFLATE close `03 00`; decompression runs the DEFLATE decoder
over those bytes and fails, so the driver returns an error instead of the
original rows. -/
theorem c1_lossless_roundtrip_fails :
    (specCompress 1 [⟨[0], [64]⟩]).bind (fun crs => Decompress crs 1) =
      .error "unexpected EOF" ∧
    (specCompress 1 [⟨[0], [64]⟩]).bind (fun crs => Decompress crs 1) ≠
      .ok [⟨[0], [64]⟩] := by decide

/-- Claim C2: the Elias-Fano round trip fails on the code. The encoder
accumulates each element's absolute high part into the running position
(`pos += v >> l`) instead of setting the bit at `high + index`, while the
decoder performs standard unary-gap decoding; for universe 8 and sequence
`[1, 3, 5]` (where `l = 0`), decoding the encoding yields `[1, 4, 9]`, not
the original sequence. -/
theorem c2_ef_roundtrip_fails :
    (efEncode 8 [1, 3, 5]).bind efDecodeBytes = .ok [1, 4, 9] ∧
    ([1, 4, 9] : List Nat) ≠ [1, 3, 5] := by decide

/-- Claim C3 counterexample: for universe 1,000,000 and count 4 the
chosen low-bit width is 17, not the claimed 16 (the code computes
`ceil(log2(u/k)) - 1`, not `floor(log2(u/k)) - 1`; the two differ whenever
`u/k` is not a power of two, and `250000` is not). -/
theorem c3_lowbits_16_refuted :
    efLowBits 1000000 4 = 17 ∧ efLowBits 1000000 4 ≠ 16 := by decide

/-- Claim C3 as amended: for `k > 0`, `u > k` and a ratio of at least 2,
the chosen width `l` satisfies `2^l < u/k ≤ 2^(l+1)`, i.e.
`l = ceil(log2(u/k)) - 1` (integer division for `u/k`); the width is 0
when the ratio is 1; and for `u = 1,000,000`, `k = 4` the width is 17.
The bound `u ≤ 2^31` keeps the model inside the domain where the Go
`uint32` search loop terminates. -/
theorem c3_lowbits_amended (u k : Nat) (hk : 0 < k) (hku : k < u) (hu : u ≤ 2 ^ 31) :
    (u / k ≤ 1 → efLowBits u k = 0) ∧
    (2 ≤ u / k → u / k ≤ 2 ^ (efLowBits u k + 1) ∧ 2 ^ efLowBits u k < u / k) ∧
    efLowBits 1000000 4 = 17 := by
  have hb : u / k ≤ 2 ^ (0 + 64) := by
    have h1 : u / k ≤ u := Nat.div_le_self u k
    have h2 : (2 : Nat) ^ 31 ≤ 2 ^ (0 + 64) := Nat.pow_le_pow_right (by omega) (by omega)
    omega
  obtain ⟨hle, hstrict⟩ := ascendLoop_spec 64 0 (u / k) hb (by omega)
  unfold efLowBits
  rw [if_pos ⟨hk, hku⟩]
  refine ⟨?_, ?_, by decide⟩
  · intro h1
    have hlb : ascendLoop 64 0 (u / k) = 0 := by
      by_contra hne
      have h0 : 0 < ascendLoop 64 0 (u / k) := by omega
      have := hstrict 0 h0
      simp at this
      omega
    simp [hlb]
  · intro h2
    have hlb1 : 1 ≤ ascendLoop 64 0 (u / k) := by
      by_contra hne
      have h0 : ascendLoop 64 0 (u / k) = 0 := by omega
      rw [h0] at hle
      simp at hle
      omega
    rw [if_pos (by omega)]
    constructor
    · have : ascendLoop 64 0 (u / k) - 1 + 1 = ascendLoop 64 0 (u / k) := by omega
      rw [this]
      exact hle
    · exact hstrict _ (by omega)

/-- Claim C3 amended witness at `u = 1,000,000`, `k = 4`. -/
theorem c3_lowbits_amended_witness :
    0 < 4 ∧ 4 < 1000000 ∧ 1000000 ≤ 2 ^ 31 ∧
    (2 ≤ 1000000 / 4 →
      1000000 / 4 ≤ 2 ^ (efLowBits 1000000 4 + 1) ∧
      2 ^ efLowBits 1000000 4 < 1000000 / 4) :=
  ⟨by decide, by decide, by decide,
    (c3_lowbits_amended 1000000 4 (by decide) (by decide) (by decide)).2.1⟩

/-- Claim C4: `CompressDeltas` does not pass the varints through the
DEFLATE encoder — for the delta list `[0]` it emits the raw varint byte
`00` followed by the close bytes of an empty DEFLATE stream — and
`DecompressDeltas` applied to the produced bytes fails (the DEFLATE
decoder chokes on the raw varints) instead of returning `[0]`. -/
theorem c4_deltas_deflate_mismatch :
    writeVarint 0 = [0] ∧
    CompressDeltas [0] = [0] ++ flateEmptyStream ∧
    DecompressDeltas (CompressDeltas [0]) = .error "unexpected EOF" ∧
    DecompressDeltas (CompressDeltas [0]) ≠ .ok [0] := by decide

/-- Claim C5: the decoder hands `ReconstructFromDelta` the row's own
decoded indices, not the sorted union with the reference. For reference
indices `[1,4,7]` values `[2,5,1]` and target `[1,4,9]` values `[3,5,2]`,
the encoder's union deltas are `[1,0,-1,2]`; decoding the row yields
indices `[1,4]` values `[3,5]` — gene 9 is dropped, the fourth delta never
applied — whereas the specified union-based reconstruction returns the
target exactly. -/
theorem c5_reconstruct_ignores_union :
    ComputeDelta ⟨[1, 4, 9], [3, 5, 2]⟩ ⟨[1, 4, 7], [2, 5, 1]⟩ = [1, 0, -1, 2] ∧
    efDecodeBytes ef149Bytes = .ok [1, 4, 9] ∧
    DecompressDeltas unionDeltaBytes = .ok [1, 0, -1, 2] ∧
    decompressCell ⟨ef149Bytes, unionDeltaBytes, 0, 3, 16⟩
      [⟨[1, 4, 7], [2, 5, 1]⟩] 16 = .ok ⟨[1, 4], [3, 5]⟩ ∧
    specReconstructUnion ⟨[1, 4, 7], [2, 5, 1]⟩ [1, 0, -1, 2] [1, 4, 9] =
      ⟨[1, 4, 9], [3, 5, 2]⟩ ∧
    (⟨[1, 4], [3, 5]⟩ : SparseRow) ≠ ⟨[1, 4, 9], [3, 5, 2]⟩ := by decide

/-- Claim C6: decoding the varint encoding of any `int32` returns the
value with nothing left over; every byte but the last carries the
continuation bit, the last byte is below `0x80` and is zero only in the
one-byte encoding of 0 (no trailing zero continuation byte, the encoding
is the shortest); and the encodings of 0, -1, 1, 2147483647 and
-2147483648 occupy 1, 1, 1, 5 and 5 bytes. -/
theorem c6_varint_roundtrip (v : Int) (h0 : -2147483648 ≤ v) (h1 : v < 2147483648) :
    readVarint (writeVarint v) = .ok (v, []) ∧
    (∀ b ∈ (writeVarint v).dropLast, 128 ≤ b) ∧
    (∃ lb, (writeVarint v).getLast? = some lb ∧ lb < 128 ∧
      (lb = 0 → (writeVarint v).length = 1)) ∧
    (writeVarint 0).length = 1 ∧ (writeVarint (-1)).length = 1 ∧
    (writeVarint 1).length = 1 ∧ (writeVarint 2147483647).length = 5 ∧
    (writeVarint (-2147483648)).length = 5 := by
  have hlt := zigzagEncode_lt v h0 h1
  have h128 : zigzagEncode v < 128 ^ 8 := by
    calc zigzagEncode v < 4294967296 := hlt
      _ < 128 ^ 8 := by norm_num
  refine ⟨?_, ?_, ?_, by decide, by decide, by decide, by decide, by decide⟩
  · unfold readVarint writeVarint
    have hspec := varint_loop_spec 8 (zigzagEncode v) 0 0 []
      h128 (by simpa using hlt) (by norm_num)
    rw [List.append_nil] at hspec
    rw [hspec]
    norm_num
    exact zigzag_roundtrip v h0 h1
  · intro b hb
    exact (varintAux_shape 8 (zigzagEncode v) h128).1 b hb
  · obtain ⟨_, lb, hlast, hlb, hz⟩ := varintAux_shape 8 (zigzagEncode v) h128
    refine ⟨lb, hlast, hlb, fun h0b => ?_⟩
    have hu0 := hz h0b
    unfold writeVarint
    rw [hu0]
    decide

/-- Claim C6 witness at `v = -3`. -/
theorem c6_varint_roundtrip_witness :
    (-2147483648 ≤ (-3 : Int)) ∧ ((-3 : Int) < 2147483648) ∧
    readVarint (writeVarint (-3)) = .ok (-3, []) :=
  ⟨by decide, by decide, (c6_varint_roundtrip (-3) (by decide) (by decide)).1⟩

/-- Claim C7: on a non-empty candidate pool the reference selector returns
`-1` when no candidate's Jaccard similarity with the target exceeds 0.1,
and otherwise the caller-supplied index of a candidate whose similarity
exceeds 0.1, is maximal over the pool, and strictly exceeds every earlier
candidate's (ties break to the earliest). The `float64` similarity is
modelled by exact rationals; for intersection and union counts below
`2^26` the correctly rounded double comparisons agree with the rational
ones. -/
theorem c7_reference_selector (target : SparseRow) (candidates : List SparseRow)
    (candidateIndices : List Int) (hne : candidates ≠ [])
    (hlen : candidates.length = candidateIndices.length) :
    ((∀ c ∈ candidates, JaccardSimilarity target.Indices c.Indices ≤ mkRat 1 10) →
      FindBestReference target candidates candidateIndices = -1) ∧
    ((∃ c ∈ candidates, JaccardSimilarity target.Indices c.Indices > mkRat 1 10) →
      ∃ i, ∃ h1 : i < candidates.length, ∃ h2 : i < candidateIndices.length,
        FindBestReference target candidates candidateIndices =
          candidateIndices.get ⟨i, h2⟩ ∧
        JaccardSimilarity target.Indices (candidates.get ⟨i, h1⟩).Indices > mkRat 1 10 ∧
        (∀ j (hj : j < candidates.length),
          JaccardSimilarity target.Indices (candidates.get ⟨j, hj⟩).Indices ≤
            JaccardSimilarity target.Indices (candidates.get ⟨i, h1⟩).Indices) ∧
        (∀ j (hj : j < candidates.length), j < i →
          JaccardSimilarity target.Indices (candidates.get ⟨j, hj⟩).Indices <
            JaccardSimilarity target.Indices (candidates.get ⟨i, h1⟩).Indices)) := by
  constructor
  · intro hall
    unfold FindBestReference
    rw [if_neg hne]
    apply findBestAux_none
    intro p hp
    obtain ⟨c0, i0⟩ := p
    have hmem := (List.of_mem_zip hp).1
    have := hall c0 hmem
    intro hcon
    have := hcon.2
    linarith
  · intro hex
    unfold FindBestReference
    rw [if_neg hne]
    have hexz : ∃ p ∈ candidates.zip candidateIndices,
        JaccardSimilarity target.Indices p.1.Indices > (-1 : ℚ) ∧
        JaccardSimilarity target.Indices p.1.Indices > mkRat 1 10 := by
      obtain ⟨c, hc, hcgt⟩ := hex
      obtain ⟨⟨j, hj⟩, hcj⟩ := List.mem_iff_get.mp hc
      have hjz : j < (candidates.zip candidateIndices).length := by
        rw [List.length_zip]
        omega
      refine ⟨(candidates.zip candidateIndices).get ⟨j, hjz⟩, List.get_mem _ _ _, ?_, ?_⟩
      · rw [List.get_zip]
        simp only
        rw [show (⟨j, by omega⟩ : Fin candidates.length) = ⟨j, hj⟩ from rfl, hcj]
        have hth : (-1 : ℚ) < mkRat 1 10 := by
          rw [Rat.mkRat_eq_div]
          norm_num
        linarith
      · rw [List.get_zip]
        simp only
        rw [show (⟨j, by omega⟩ : Fin candidates.length) = ⟨j, hj⟩ from rfl, hcj]
        exact hcgt
    obtain ⟨i, hi, heq, _hgt, hgt10, hmax, hpref⟩ :=
      findBestAux_some target (candidates.zip candidateIndices) (-1) (-1) hexz
    have hzlen : (candidates.zip candidateIndices).length = candidates.length := by
      rw [List.length_zip]
      omega
    have hic : i < candidates.length := by omega
    have hii : i < candidateIndices.length := by omega
    refine ⟨i, hic, hii, ?_, ?_, ?_, ?_⟩
    · rw [heq, List.get_zip]
    · have := hgt10
      rw [List.get_zip] at this
      exact this
    · intro j hj
      have hjz : j < (candidates.zip candidateIndices).length := by omega
      have := hmax j hjz
      rw [List.get_zip, List.get_zip] at this
      exact this
    · intro j hj hji
      have hjz : j < (candidates.zip candidateIndices).length := by omega
      have := hpref j hjz hji
      rw [List.get_zip, List.get_zip] at this
      exact this

/-- Claim C7 witness: a single self-identical candidate (Jaccard 1) is
selected at its supplied index 0. -/
theorem c7_reference_selector_witness :
    FindBestReference ⟨[1, 2], [1, 1]⟩ [⟨[1, 2], [1, 1]⟩] [0] = 0 := by
  have h := c7_reference_selector ⟨[1, 2], [1, 1]⟩ [⟨[1, 2], [1, 1]⟩] [0]
    (by decide) (by decide)
  have hex : ∃ c ∈ ([⟨[1, 2], [1, 1]⟩] : List SparseRow),
      JaccardSimilarity [1, 2] c.Indices > mkRat 1 10 := by
    refine ⟨⟨[1, 2], [1, 1]⟩, by simp, by decide⟩
  obtain ⟨i, h1, h2, heq, _⟩ := h.2 hex
  have hi0 : i = 0 := by
    simp at h1
    omega
  subst hi0
  simpa using heq

/-- One continuation step of the varint read loop. -/
theorem readVarintLoop_cont (b : Nat) (rest : List Nat) (s acc : Nat)
    (hb : 128 ≤ b) (hs : s + 7 < 32) :
    readVarintLoop (b :: rest) s acc =
      readVarintLoop rest (s + 7) (acc ||| (((b &&& 127) <<< s) % 4294967296)) := by
  simp only [readVarintLoop]
  rw [if_neg (by omega)]
  rw [if_neg (by omega)]

/-- A continuation byte at shift 25 or beyond overflows. -/
theorem readVarintLoop_overflow_at (b : Nat) (rest : List Nat) (s acc : Nat)
    (hb : 128 ≤ b) (hs : s + 7 ≥ 32) :
    readVarintLoop (b :: rest) s acc = .error "varint overflow" := by
  simp only [readVarintLoop]
  rw [if_neg (by omega)]
  rw [if_pos hs]

/-- Claim C8 counterexample: a DEFLATE stream that inflates to a valid
varint followed by a varint longer than 5 bytes. The varint reader does
fail with the overflow error on the long varint, but `DecompressDeltas`
returns the partial list `[1]` as a successful result — no error surfaces
to the caller. -/
theorem c8_overflow_not_surfaced :
    inflate c8Bytes = .ok [2, 128, 128, 128, 128, 128] ∧
    readVarint [128, 128, 128, 128, 128] = .error "varint overflow" ∧
    DecompressDeltas c8Bytes = .ok [1] := by decide

/-- Claim C8 as amended: a varint of more than 5 bytes makes the varint
reader itself fail with the overflow error (after five continuation
bytes, before consuming a sixth), but `DecompressDeltas` swallows every
varint failure as end-of-data: whenever the DEFLATE layer succeeds it
returns, without error, the deltas decoded before the first failure. -/
theorem c8_amended_swallows_varint_errors (b1 b2 b3 b4 b5 : Nat) (rest : List Nat)
    (h1 : 128 ≤ b1) (h2 : 128 ≤ b2) (h3 : 128 ≤ b3) (h4 : 128 ≤ b4) (h5 : 128 ≤ b5) :
    readVarintLoop (b1 :: b2 :: b3 :: b4 :: b5 :: rest) 0 0 = .error "varint overflow" ∧
    (∀ (bs payload : List Nat), bs ≠ [] → inflate bs = .ok payload →
      DecompressDeltas bs = .ok (readDeltasLoop (payload.length + 1) payload)) ∧
    DecompressDeltas c8Bytes = .ok [1] := by
  refine ⟨?_, ?_, by decide⟩
  · rw [readVarintLoop_cont b1 _ _ _ h1 (by omega)]
    rw [readVarintLoop_cont b2 _ _ _ h2 (by omega)]
    rw [readVarintLoop_cont b3 _ _ _ h3 (by omega)]
    rw [readVarintLoop_cont b4 _ _ _ h4 (by omega)]
    exact readVarintLoop_overflow_at b5 _ _ _ h5 (by omega)
  · intro bs payload hne hinf
    unfold DecompressDeltas
    rw [if_neg hne, hinf]

/-- Claim C8 amended witness at five `0x80` bytes. -/
theorem c8_amended_swallows_witness :
    (128 ≤ 128) ∧
    readVarintLoop [128, 128, 128, 128, 128] 0 0 = .error "varint overflow" :=
  ⟨by decide,
    (c8_amended_swallows_varint_errors 128 128 128 128 128 []
      (by decide) (by decide) (by decide) (by decide) (by decide)).1⟩

/-- Claim C9: the driver performs no dependency scheduling — every cell
index is queued at once — so a row with `ref_cell >= 0` can be decoded
before its reference is published. On `rows9` (row 1 references row 0),
the schedule that decodes row 0 first yields value 6 for row 1, while the
schedule that decodes row 1 first reads the still-empty reference slot and
yields value 1: the decoded output depends on the interleaving. -/
theorem c9_schedule_dependent_output :
    runSchedule rows9 1 [0, 1] = ([⟨[0], [5]⟩, ⟨[0], [6]⟩], none) ∧
    runSchedule rows9 1 [1, 0] = ([⟨[0], [5]⟩, ⟨[0], [1]⟩], none) ∧
    runSchedule rows9 1 [0, 1] ≠ runSchedule rows9 1 [1, 0] := by decide

/-- Claim C10: every row returned successfully by `decompressCell` has
index and value lists of equal length, because the final step truncates
both to the shorter length and never reports an error; on `crTrunc` the
core decode produces one index and no values, and the call still succeeds
with both lists truncated to empty. -/
theorem c10_equal_lengths_by_truncation (cr : CompressedRow) (matrix : List SparseRow)
    (numGenes : Nat) (r : SparseRow) (h : decompressCell cr matrix numGenes = .ok r) :
    r.Indices.length = r.Values.length ∧
    decompressCellCore crTrunc [] 1 = .ok ⟨[0], []⟩ ∧
    decompressCell crTrunc [] 1 = .ok ⟨[], []⟩ := by
  refine ⟨?_, by decide, by decide⟩
  unfold decompressCell at h
  cases hcore : decompressCellCore cr matrix numGenes with
  | error e => rw [hcore] at h; simp [Except.map] at h
  | ok r0 =>
      rw [hcore] at h
      simp only [Except.map] at h
      have hr : r = truncRow r0 := by
        cases h
        rfl
      subst hr
      unfold truncRow
      simp only [List.length_take]
      omega

/-- Claim C10 witness at `crTrunc`. -/
theorem c10_equal_lengths_witness :
    decompressCell crTrunc [] 1 = .ok ⟨[], []⟩ ∧
    (⟨[], []⟩ : SparseRow).Indices.length = (⟨[], []⟩ : SparseRow).Values.length :=
  ⟨by decide,
    (c10_equal_lengths_by_truncation crTrunc [] 1 ⟨[], []⟩ (by decide)).1⟩

end SCComp
